import Mathlib

/-!
# Agenda model of nemo-qml-plugin-calendar

A shallow embedding of `src/calendaragendamodel.cpp` (the setters, the two
predicates `eventsEqual` / `eventsLessThan`, and `doRefresh` with its filter
pass, its `std::sort` call and its merge loop) and of the accessors of
`src/calendarevent.cpp` that those functions call.

Conventions of the embedding:

* a `QDateTime` / `QDate` is an integer instant, compared with `==` and `<`;
* a `QString` is a Lean `String`; `QString::compare` returns `-1`, `0` or `1`;
* a pointer to a `CalendarEventOccurrence` is a record carrying the object's
  address (`addr`) next to the values its accessors return; a null
  `CalendarEvent *` is `none`, and dereferencing it makes the enclosing
  function return `none`;
* the cursors `eventsCounter` / `newEventsCounter` of the merge loop are kept
  as the not-yet-consumed suffixes of `events` / `newEvents`, so that
  `events.at(eventsCounter + n)` is the `n`-th entry of the suffix and
  `eventsCounter >= events.count()` says the suffix is empty; the live list
  `mEvents` is edited by index exactly as the source does.
-/

namespace CalendarAgenda

/-! ## Values -/

abbrev QDateTime := Int

abbrev QDate := Int

/-- Three-way comparison of two code-point sequences, the result of
`QString::compare`: negative, zero or positive. -/
def compareChars : List Char → List Char → Int
  | [], [] => 0
  | [], _ :: _ => -1
  | _ :: _, [] => 1
  | a :: as, b :: bs =>
    if a.toNat < b.toNat then -1
    else if b.toNat < a.toNat then 1
    else compareChars as bs

/-- The case sensitivity argument of `QString::compare`. -/
inductive CaseSensitivity where
  | CaseInsensitive
  | CaseSensitive
  deriving DecidableEq, Repr

/-- Case folding of one character (ASCII letters, as `Char.toLower`). -/
def foldCase (c : Char) : Char := c.toLower

/-- `QString::compare(s1, s2, cs)`. -/
def qStringCompare (s1 s2 : String) (cs : CaseSensitivity) : Int :=
  match cs with
  | CaseSensitivity.CaseSensitive => compareChars s1.toList s2.toList
  | CaseSensitivity.CaseInsensitive =>
    compareChars (s1.toList.map foldCase) (s2.toList.map foldCase)

/-! ## `CalendarEvent` (calendarevent.cpp) -/

/-- The record `CalendarManager::getEvent` returns, restricted to the fields
the agenda model reads. -/
structure EventData where
  displayLabel : String
  allDay : Bool
  calendarUid : String
  deriving DecidableEq, Repr

/-- The `CalendarManager` singleton, as far as `CalendarEvent` uses it: the
lookup `getEvent(uid, recurrenceId)`. -/
structure CalendarManager where
  getEvent : String → QDateTime → EventData

/-- A `CalendarEvent` object: the members `mUniqueId` and `mRecurrenceId`. -/
structure CalendarEvent where
  mUniqueId : String
  mRecurrenceId : QDateTime
  deriving DecidableEq, Repr

namespace CalendarEvent

/-- `CalendarEvent::uniqueId`. -/
def uniqueId (e : CalendarEvent) : String := e.mUniqueId

/-- `CalendarEvent::recurrenceId`. -/
def recurrenceId (e : CalendarEvent) : QDateTime := e.mRecurrenceId

/-- `CalendarEvent::displayLabel`. -/
def displayLabel (mManager : CalendarManager) (e : CalendarEvent) : String :=
  (mManager.getEvent e.mUniqueId e.mRecurrenceId).displayLabel

/-- `CalendarEvent::allDay`. -/
def allDay (mManager : CalendarManager) (e : CalendarEvent) : Bool :=
  (mManager.getEvent e.mUniqueId e.mRecurrenceId).allDay

/-- `CalendarEvent::calendarUid`. -/
def calendarUid (mManager : CalendarManager) (e : CalendarEvent) : String :=
  (mManager.getEvent e.mUniqueId e.mRecurrenceId).calendarUid

end CalendarEvent

/-- A `CalendarEventOccurrence *`: the address of the object and what its
accessors `startTime()`, `endTime()` and `eventObject()` return (`none` for a
null event object). -/
structure Occurrence where
  addr : Nat
  startTime : QDateTime
  endTime : QDateTime
  eventObject : Option CalendarEvent
  deriving DecidableEq, Repr

/-! ## The two predicates -/

/-- `eventsEqual` (calendaragendamodel.cpp, lines 105-118). -/
def eventsEqual (e1 e2 : Occurrence) : Bool :=
  if e1.startTime != e2.startTime || e1.endTime != e2.endTime then
    false
  else
    match e1.eventObject, e2.eventObject with
    | some eventObject1, some eventObject2 =>
      eventObject1.uniqueId == eventObject2.uniqueId &&
        eventObject1.recurrenceId == eventObject2.recurrenceId
    | _, _ => false

/-- `eventsLessThan` (lines 120-134). With equal start times both event
objects are dereferenced without a check; `none` is that dereference of a
null pointer. -/
def eventsLessThan (mManager : CalendarManager) (e1 e2 : Occurrence) : Option Bool :=
  if e1.startTime == e2.startTime then
    match e1.eventObject, e2.eventObject with
    | some o1, some o2 =>
      let cmp := qStringCompare (o1.displayLabel mManager) (o2.displayLabel mManager)
        CaseSensitivity.CaseInsensitive
      if cmp == 0 then
        some (decide (qStringCompare o1.uniqueId o2.uniqueId CaseSensitivity.CaseSensitive < 0))
      else
        some (decide (cmp < 0))
    | _, _ => none
  else
    some (decide (e1.startTime < e2.startTime))

/-! ## The model object and its setters -/

/-- What a member function does besides changing the object: the signals it
emits, in order, and its calls of `CalendarManager::scheduleAgendaRefresh`. -/
inductive Effect where
  | startDateChanged
  | endDateChanged
  | filterModeChanged
  | countChanged
  | updated
  | rowsRemoved (first last : Nat)
  | rowsInserted (first last : Nat)
  | scheduleAgendaRefresh
  deriving DecidableEq, Repr

/-- The members of `CalendarAgendaModel`. -/
structure CalendarAgendaModel where
  mStartDate : QDate
  mEndDate : QDate
  mIsComplete : Bool
  mFilterMode : Int
  mEvents : List Occurrence
  deriving DecidableEq, Repr

/-- Modelled from the spec: the `FilterMode` enumerators are declared in
`calendaragendamodel.h`, which is not among the sources; the spec describes
the filter configuration as a bitset of independent flags with the empty set
meaning no filtering. -/
def FilterNone : Int := 0

/-- Modelled from the spec: the flag of the all-day-only option (see
`FilterNone`). -/
def FilterNonAllDay : Int := 1

/-- Modelled from the spec: the flag of the one-per-collection option (see
`FilterNone`). -/
def FilterMultipleEventsPerNotebook : Int := 2

namespace CalendarAgendaModel

/-- `CalendarAgendaModel::refresh` (lines 97-103). -/
def refresh (self : CalendarAgendaModel) : List Effect :=
  if !self.mIsComplete then []
  else [Effect.scheduleAgendaRefresh]

/-- `CalendarAgendaModel::setStartDate` (lines 70-79). -/
def setStartDate (self : CalendarAgendaModel) (startDate : QDate) :
    CalendarAgendaModel × List Effect :=
  if self.mStartDate == startDate then (self, [])
  else
    let self1 := { self with mStartDate := startDate }
    (self1, Effect.startDateChanged :: self1.refresh)

/-- `CalendarAgendaModel::setEndDate` (lines 86-95). -/
def setEndDate (self : CalendarAgendaModel) (endDate : QDate) :
    CalendarAgendaModel × List Effect :=
  if self.mEndDate == endDate then (self, [])
  else
    let self1 := { self with mEndDate := endDate }
    (self1, Effect.endDateChanged :: self1.refresh)

/-- `CalendarAgendaModel::setFilterMode` (lines 241-248). -/
def setFilterMode (self : CalendarAgendaModel) (mode : Int) :
    CalendarAgendaModel × List Effect :=
  if mode != self.mFilterMode then
    let self1 := { self with mFilterMode := mode }
    (self1, Effect.filterModeChanged :: self1.refresh)
  else (self, [])

/-- `CalendarAgendaModel::classBegin` (lines 286-289). -/
def classBegin (self : CalendarAgendaModel) : CalendarAgendaModel × List Effect :=
  ({ self with mIsComplete := false }, [])

/-- `CalendarAgendaModel::componentComplete` (lines 291-295). -/
def componentComplete (self : CalendarAgendaModel) : CalendarAgendaModel × List Effect :=
  let self1 := { self with mIsComplete := true }
  (self1, self1.refresh)

end CalendarAgendaModel

/-! ## `doRefresh`: the filter pass -/

/-- The filter loop of `doRefresh` (lines 144-165) over the candidates from
`it` on, with the set `alreadyAddedCalendarUids` so far. The result is
`(newEvents, skippedEvents)`: the candidates left in `newEvents` and those
appended to `skippedEvents`, both in input order. -/
def filterLoop (mManager : CalendarManager) (mFilterMode : Int) :
    List Occurrence → List String → Option (List Occurrence × List Occurrence)
  | [], _ => some ([], [])
  | it :: rest, alreadyAddedCalendarUids =>
    (if Int.land mFilterMode FilterNonAllDay != 0 then
        it.eventObject.map fun ev => !(ev.allDay mManager)
      else some false).bind fun skip1 =>
    (if Int.land mFilterMode FilterMultipleEventsPerNotebook != 0 then
        it.eventObject.map fun ev =>
          let uid := ev.calendarUid mManager
          if alreadyAddedCalendarUids.contains uid then (true, alreadyAddedCalendarUids)
          else (skip1, uid :: alreadyAddedCalendarUids)
      else some (skip1, alreadyAddedCalendarUids)).bind fun step =>
    (filterLoop mManager mFilterMode rest step.2).map fun out =>
      if step.1 then (out.1, it :: out.2) else (it :: out.1, out.2)

/-- The filter pass of `doRefresh` (lines 139-166). -/
def filterPass (mManager : CalendarManager) (mFilterMode : Int)
    (newEvents : List Occurrence) : Option (List Occurrence × List Occurrence) :=
  if mFilterMode != FilterNone then filterLoop mManager mFilterMode newEvents []
  else some (newEvents, [])

/-! ## `doRefresh`: the sort call -/

/-- Insertion of one pointer into a list sorted by address. -/
def insertByAddr (x : Occurrence) : List Occurrence → List Occurrence
  | [] => [x]
  | y :: ys => if x.addr ≤ y.addr then x :: y :: ys else y :: insertByAddr x ys

/-- `std::sort(newEvents.begin(), newEvents.end())` (line 168): no comparator
is passed, so the elements, which are pointers, are ordered by `operator<` on
pointers, that is by ascending address. -/
def stdSort : List Occurrence → List Occurrence
  | [] => []
  | x :: xs => insertByAddr x (stdSort xs)

/-! ## `doRefresh`: the merge loop -/

/-- The state of the merge loop (lines 170-221). `events` and `newEvents` are
the suffixes from `eventsCounter` and `newEventsCounter` on; `deleted` collects
the objects passed to `delete` in removal runs. -/
structure MergeState where
  mEvents : List Occurrence
  events : List Occurrence
  newEvents : List Occurrence
  mEventsIndex : Nat
  skippedEvents : List Occurrence
  deleted : List Occurrence
  signals : List Effect
  deriving DecidableEq, Repr

/-- The counting loop of the removal run (lines 177-183): `removeCount` for
the old suffix given, against the new suffix `newEvents`. -/
def removeCount (mManager : CalendarManager) (newEvents : List Occurrence) :
    List Occurrence → Option Nat
  | [] => some 0
  | e :: events =>
    match newEvents with
    | [] => (removeCount mManager newEvents events).map (· + 1)
    | n :: _ =>
      (eventsLessThan mManager e n).bind fun lt =>
        if lt then (removeCount mManager newEvents events).map (· + 1) else some 0

/-- The match run (lines 195-201): how many leading pairs of the two suffixes
satisfy `eventsEqual(new, old)`. -/
def matchCount : List Occurrence → List Occurrence → Nat
  | e :: events, n :: newEvents =>
    if eventsEqual n e then matchCount events newEvents + 1 else 0
  | _, _ => 0

/-- The counting loop of the insertion run (lines 204-210): `insertCount` for
the new suffix given, against the old suffix `events`. -/
def insertCount (mManager : CalendarManager) (events : List Occurrence) :
    List Occurrence → Option Nat
  | [] => some 0
  | n :: newEvents =>
    match events with
    | [] => (insertCount mManager events newEvents).map (· + 1)
    | e :: _ =>
      (eventsLessThan mManager e n).bind fun lt =>
        if !lt then (insertCount mManager events newEvents).map (· + 1) else some 0

/-- `mEvents.erase(mEvents.begin() + first, mEvents.begin() + first + count)`. -/
def eraseRange (mEvents : List Occurrence) (first count : Nat) : List Occurrence :=
  mEvents.take first ++ mEvents.drop (first + count)

/-- `mEvents.insert(i, value)` of `QList`. -/
def insertAt (mEvents : List Occurrence) (i : Nat) (value : Occurrence) : List Occurrence :=
  mEvents.take i ++ value :: mEvents.drop i

/-- The loop `mEvents.insert(mEventsIndex++, ...)` of lines 214-217 over the
entries of one insertion run; returns the list and the advanced index. -/
def insertRows : List Occurrence → Nat → List Occurrence → List Occurrence × Nat
  | mEvents, mEventsIndex, [] => (mEvents, mEventsIndex)
  | mEvents, mEventsIndex, n :: rest =>
    insertRows (insertAt mEvents mEventsIndex n) (mEventsIndex + 1) rest

/-- The removal step of one pass (lines 185-192). -/
def applyRemove (s : MergeState) (removeCount : Nat) : MergeState :=
  if removeCount != 0 then
    { s with
      signals := s.signals ++
        [Effect.rowsRemoved s.mEventsIndex (s.mEventsIndex + removeCount - 1)]
      mEvents := eraseRange s.mEvents s.mEventsIndex removeCount
      deleted := s.deleted ++ s.events.take removeCount
      events := s.events.drop removeCount }
  else s

/-- The match run of one pass (lines 195-201) for `matched` matching pairs. -/
def applyMatch (s : MergeState) (matched : Nat) : MergeState :=
  { s with
    skippedEvents := s.skippedEvents ++ s.newEvents.take matched
    events := s.events.drop matched
    newEvents := s.newEvents.drop matched
    mEventsIndex := s.mEventsIndex + matched }

/-- The insertion step of one pass (lines 212-220). -/
def applyInsert (s : MergeState) (insertCount : Nat) : MergeState :=
  if insertCount != 0 then
    let r := insertRows s.mEvents s.mEventsIndex (s.newEvents.take insertCount)
    { s with
      signals := s.signals ++
        [Effect.rowsInserted s.mEventsIndex (s.mEventsIndex + insertCount - 1)]
      mEvents := r.1
      mEventsIndex := r.2
      newEvents := s.newEvents.drop insertCount }
  else s

/-- One pass of the body of the outer loop (lines 176-220). -/
def mergePass (mManager : CalendarManager) (s : MergeState) : Option MergeState :=
  (removeCount mManager s.newEvents s.events).bind fun rc =>
    let s1 := applyRemove s rc
    let s2 := applyMatch s1 (matchCount s1.events s1.newEvents)
    (insertCount mManager s2.events s2.newEvents).map fun ic =>
      applyInsert s2 ic

/-- The outer loop (line 175). `fuel` bounds the number of passes; `none` is
a null dereference in `eventsLessThan`, or fuel used up with entries left. -/
def mergeLoop (mManager : CalendarManager) : Nat → MergeState → Option MergeState
  | 0, s => if s.newEvents.isEmpty && s.events.isEmpty then some s else none
  | fuel + 1, s =>
    if s.newEvents.isEmpty && s.events.isEmpty then some s
    else (mergePass mManager s).bind (mergeLoop mManager fuel)

/-- What one call of `doRefresh` leaves behind: the live list, the objects
deleted (in removal runs and by `qDeleteAll(skippedEvents)`), and the signals
emitted, in order. -/
structure RefreshResult where
  mEvents : List Occurrence
  deleted : List Occurrence
  signals : List Effect
  deriving DecidableEq, Repr

/-- The reconciliation of `doRefresh` (lines 170-229): the merge loop over
the live list `mEvents` and the filtered and sorted `newEvents`, then
`qDeleteAll(skippedEvents)`, `countChanged` and `updated`. Every pass of the
loop consumes an entry, so `mEvents.length + newEvents.length` passes are
enough. -/
def reconcile (mManager : CalendarManager) (mEvents newEvents skippedEvents : List Occurrence) :
    Option RefreshResult :=
  let oldEventCount := mEvents.length
  (mergeLoop mManager (mEvents.length + newEvents.length)
    { mEvents := mEvents, events := mEvents, newEvents := newEvents, mEventsIndex := 0,
      skippedEvents := skippedEvents, deleted := [], signals := [] }).map fun s =>
    { mEvents := s.mEvents
      deleted := s.deleted ++ s.skippedEvents
      signals := s.signals ++
        (if oldEventCount != s.mEvents.length then [Effect.countChanged] else []) ++
        [Effect.updated] }

/-- `CalendarAgendaModel::doRefresh` (lines 136-229). -/
def doRefresh (mManager : CalendarManager) (self : CalendarAgendaModel)
    (newEvents : List Occurrence) : Option RefreshResult :=
  (filterPass mManager self.mFilterMode newEvents).bind fun f =>
    reconcile mManager self.mEvents (stdSort f.1) f.2

/-! ## The filter stage as the specification words it -/

/-- A range signal covers at least one row (`first ≤ last`); other effects
are not range signals and pass. -/
def rangeNonEmpty : Effect → Bool
  | Effect.rowsRemoved first last => decide (first ≤ last)
  | Effect.rowsInserted first last => decide (first ≤ last)
  | _ => true

/-- Whether the effect `b` may come directly after the effect `a`: an
insertion never directly follows an insertion, and a removal directly follows
a removal only further down the list, behind at least one row that stayed. -/
def mayFollow : Effect → Effect → Bool
  | Effect.rowsInserted _ _, Effect.rowsInserted _ _ => false
  | Effect.rowsRemoved first1 _, Effect.rowsRemoved first2 _ => decide (first1 < first2)
  | _, _ => true

/-- The range signals emitted so far are maximal runs, and the state fits the
last of them: after an insertion the next pass starts with a removal, after a
removal the index has moved on or the loop is over. -/
def RangesOk (mManager : CalendarManager) (s : MergeState) : Prop :=
  s.signals.Chain' (fun a b => mayFollow a b = true) ∧
  (∀ op ∈ s.signals, rangeNonEmpty op = true) ∧
  (∀ a b, s.signals.getLast? = some (Effect.rowsInserted a b) →
    s.newEvents = [] ∨ ∃ e n, s.events.head? = some e ∧ s.newEvents.head? = some n ∧
      eventsLessThan mManager e n = some true) ∧
  (∀ f l, s.signals.getLast? = some (Effect.rowsRemoved f l) →
    f < s.mEventsIndex ∨ (s.events = [] ∧ s.newEvents = []))

/-! ## Concrete inputs -/

/-- An occurrence at address `addr` from `startTime` to `endTime` of the
event with unique id `uid` and recurrence id `0`. -/
def mkOccurrence (addr : Nat) (startTime endTime : QDateTime) (uid : String) : Occurrence :=
  { addr := addr, startTime := startTime, endTime := endTime,
    eventObject := some { mUniqueId := uid, mRecurrenceId := 0 } }

/-- A manager whose events carry their unique id as display label. -/
def labelManager : CalendarManager where
  getEvent uid _ := { displayLabel := uid, allDay := false, calendarUid := "" }

/-- A manager for the ordering example: the event `x2` with recurrence id `0`
is labelled `b`, every other event `a`. -/
def sortManager : CalendarManager where
  getEvent uid recurrenceId :=
    if uid = "x2" ∧ recurrenceId = 0 then { displayLabel := "b", allDay := false, calendarUid := "" }
    else { displayLabel := "a", allDay := false, calendarUid := "" }

/-- An occurrence whose event object does not resolve. -/
def unresolvedOccurrence (addr : Nat) (startTime endTime : QDateTime) : Occurrence :=
  { addr := addr, startTime := startTime, endTime := endTime, eventObject := none }

/-- A model object with an empty live list, no filter and the given
`mIsComplete`. -/
def emptyModel (mIsComplete : Bool) : CalendarAgendaModel :=
  { mStartDate := 0, mEndDate := 0, mIsComplete := mIsComplete, mFilterMode := FilterNone,
    mEvents := [] }

/-- A contiguous edit of a list of rows: remove the rows `first .. last`, or
insert `rows` before position `first`. -/
inductive RangeEdit where
  | remove (first last : Nat)
  | insert (first : Nat) (rows : List Occurrence)

/-- The list after a contiguous edit. -/
def RangeEdit.apply : RangeEdit → List Occurrence → List Occurrence
  | RangeEdit.remove first last, rows => eraseRange rows first (last + 1 - first)
  | RangeEdit.insert first new, rows => rows.take first ++ new ++ rows.drop first

/-- Whether an effect is one of the two range signals. -/
def isRangeSignal : Effect → Bool
  | Effect.rowsRemoved _ _ => true
  | Effect.rowsInserted _ _ => true
  | _ => false

/-- The values an occurrence shows: everything but the address of the object. -/
def Occurrence.content (o : Occurrence) : QDateTime × QDateTime × Option CalendarEvent :=
  (o.startTime, o.endTime, o.eventObject)

/-! # Lemmas -/

/-! ## The counting loops -/

theorem removeCount_le (m : CalendarManager) (new : List Occurrence) :
    ∀ (evs : List Occurrence) (rc : Nat), removeCount m new evs = some rc → rc ≤ evs.length := by
  intro evs
  induction evs with
  | nil => intro rc h; simp [removeCount] at h; omega
  | cons e evs ih =>
    intro rc h
    cases new with
    | nil =>
      simp only [removeCount, Option.map_eq_some'] at h
      obtain ⟨a, ha, rfl⟩ := h
      have := ih a ha
      simp; omega
    | cons n ns =>
      simp only [removeCount, Option.bind_eq_some] at h
      obtain ⟨lt, _, h2⟩ := h
      cases lt with
      | true =>
        simp only [if_true, Option.map_eq_some'] at h2
        obtain ⟨a, ha, rfl⟩ := h2
        have := ih a ha
        simp; omega
      | false =>
        simp at h2
        omega

/-- Where the removal run stops: the old suffix is used up, or its next entry
is not less than the current new entry. -/
theorem removeCount_stop (m : CalendarManager) (new : List Occurrence) :
    ∀ (evs : List Occurrence) (rc : Nat), removeCount m new evs = some rc →
      evs.drop rc = [] ∨
        ∃ e n, (evs.drop rc).head? = some e ∧ new.head? = some n ∧
          eventsLessThan m e n = some false := by
  intro evs
  induction evs with
  | nil => intro rc h; left; simp
  | cons e evs ih =>
    intro rc h
    cases new with
    | nil =>
      simp only [removeCount, Option.map_eq_some'] at h
      obtain ⟨a, ha, rfl⟩ := h
      simpa using ih a ha
    | cons n ns =>
      simp only [removeCount, Option.bind_eq_some] at h
      obtain ⟨lt, hlt, h2⟩ := h
      cases lt with
      | true =>
        simp only [if_true, Option.map_eq_some'] at h2
        obtain ⟨a, ha, rfl⟩ := h2
        simpa using ih a ha
      | false =>
        simp at h2
        subst h2
        right
        exact ⟨e, n, by simp, by simp, hlt⟩

/-- The removal run takes the first old entry when it is less than the
current new entry, or when no new entry is left. -/
theorem removeCount_pos (m : CalendarManager) (new evs : List Occurrence) (e : Occurrence)
    (rc : Nat) (h : removeCount m new (e :: evs) = some rc)
    (hlt : new = [] ∨ ∃ n, new.head? = some n ∧ eventsLessThan m e n = some true) :
    0 < rc := by
  cases new with
  | nil =>
    simp only [removeCount, Option.map_eq_some'] at h
    obtain ⟨a, _, rfl⟩ := h
    omega
  | cons n ns =>
    rcases hlt with hnil | ⟨n', hn', hlt'⟩
    · simp at hnil
    · simp at hn'
      subst hn'
      simp only [removeCount, hlt', Option.some_bind, if_true, Option.map_eq_some'] at h
      obtain ⟨a, _, rfl⟩ := h
      omega

theorem removeCount_isSome (m : CalendarManager) (new : List Occurrence) :
    ∀ (evs : List Occurrence),
      (∀ e ∈ evs, ∀ n ∈ new, (eventsLessThan m e n).isSome = true) →
      ∃ rc, removeCount m new evs = some rc := by
  intro evs
  induction evs with
  | nil => intro _; exact ⟨0, rfl⟩
  | cons e evs ih =>
    intro hdef
    obtain ⟨a, ha⟩ := ih (fun x hx n hn => hdef x (List.mem_cons_of_mem _ hx) n hn)
    cases new with
    | nil => exact ⟨a + 1, by simp [removeCount, ha]⟩
    | cons n ns =>
      have h1 := hdef e (List.mem_cons_self _ _) n (List.mem_cons_self _ _)
      obtain ⟨lt, hlt⟩ := Option.isSome_iff_exists.mp h1
      cases lt with
      | true => exact ⟨a + 1, by simp [removeCount, hlt, ha]⟩
      | false => exact ⟨0, by simp [removeCount, hlt]⟩

theorem insertCount_le (m : CalendarManager) (evs : List Occurrence) :
    ∀ (new : List Occurrence) (ic : Nat), insertCount m evs new = some ic → ic ≤ new.length := by
  intro new
  induction new with
  | nil => intro ic h; simp [insertCount] at h; omega
  | cons n new ih =>
    intro ic h
    cases evs with
    | nil =>
      simp only [insertCount, Option.map_eq_some'] at h
      obtain ⟨a, ha, rfl⟩ := h
      have := ih a ha
      simp; omega
    | cons e es =>
      simp only [insertCount, Option.bind_eq_some] at h
      obtain ⟨lt, _, h2⟩ := h
      cases lt with
      | false =>
        simp only [Bool.not_false, if_true, Option.map_eq_some'] at h2
        obtain ⟨a, ha, rfl⟩ := h2
        have := ih a ha
        simp; omega
      | true =>
        simp at h2
        omega

/-- Where the insertion run stops: the new suffix is used up, or the current
old entry is less than its next entry. -/
theorem insertCount_stop (m : CalendarManager) (evs : List Occurrence) :
    ∀ (new : List Occurrence) (ic : Nat), insertCount m evs new = some ic →
      new.drop ic = [] ∨
        ∃ e n, evs.head? = some e ∧ (new.drop ic).head? = some n ∧
          eventsLessThan m e n = some true := by
  intro new
  induction new with
  | nil => intro ic h; left; simp
  | cons n new ih =>
    intro ic h
    cases evs with
    | nil =>
      simp only [insertCount, Option.map_eq_some'] at h
      obtain ⟨a, ha, rfl⟩ := h
      simpa using ih a ha
    | cons e es =>
      simp only [insertCount, Option.bind_eq_some] at h
      obtain ⟨lt, hlt, h2⟩ := h
      cases lt with
      | false =>
        simp only [Bool.not_false, if_true, Option.map_eq_some'] at h2
        obtain ⟨a, ha, rfl⟩ := h2
        simpa using ih a ha
      | true =>
        simp at h2
        subst h2
        right
        exact ⟨e, n, by simp, by simp, hlt⟩

/-- The insertion run takes the first new entry when no old entry is left or
the current old entry is not less than it. -/
theorem insertCount_pos (m : CalendarManager) (evs new : List Occurrence) (n : Occurrence)
    (ic : Nat) (h : insertCount m evs (n :: new) = some ic)
    (hge : evs = [] ∨ ∃ e, evs.head? = some e ∧ eventsLessThan m e n = some false) :
    0 < ic := by
  cases evs with
  | nil =>
    simp only [insertCount, Option.map_eq_some'] at h
    obtain ⟨a, _, rfl⟩ := h
    omega
  | cons e es =>
    rcases hge with hnil | ⟨e', he', hlt'⟩
    · simp at hnil
    · simp at he'
      subst he'
      simp only [insertCount, hlt', Option.some_bind, Bool.not_false, if_true,
        Option.map_eq_some'] at h
      obtain ⟨a, _, rfl⟩ := h
      omega

theorem insertCount_isSome (m : CalendarManager) (evs : List Occurrence) :
    ∀ (new : List Occurrence),
      (∀ e ∈ evs, ∀ n ∈ new, (eventsLessThan m e n).isSome = true) →
      ∃ ic, insertCount m evs new = some ic := by
  intro new
  induction new with
  | nil => intro _; exact ⟨0, rfl⟩
  | cons n new ih =>
    intro hdef
    obtain ⟨a, ha⟩ := ih (fun x hx y hy => hdef x hx y (List.mem_cons_of_mem _ hy))
    cases evs with
    | nil => exact ⟨a + 1, by simp [insertCount, ha]⟩
    | cons e es =>
      have h1 := hdef e (List.mem_cons_self _ _) n (List.mem_cons_self _ _)
      obtain ⟨lt, hlt⟩ := Option.isSome_iff_exists.mp h1
      cases lt with
      | false => exact ⟨a + 1, by simp [insertCount, hlt, ha]⟩
      | true => exact ⟨0, by simp [insertCount, hlt]⟩

theorem matchCount_le_left : ∀ (evs new : List Occurrence), matchCount evs new ≤ evs.length
  | [], _ => by simp [matchCount]
  | _ :: _, [] => by simp [matchCount]
  | e :: evs, n :: new => by
    simp only [matchCount]
    split
    · have := matchCount_le_left evs new
      simp; omega
    · omega

theorem matchCount_le_right : ∀ (evs new : List Occurrence), matchCount evs new ≤ new.length
  | [], _ => by simp [matchCount]
  | _ :: _, [] => by simp [matchCount]
  | e :: evs, n :: new => by
    simp only [matchCount]
    split
    · have := matchCount_le_right evs new
      simp; omega
    · omega

/-- The pairs the match run steps over are pairs of `eventsEqual` entries. -/
theorem matchCount_forall₂ : ∀ (evs new : List Occurrence),
    List.Forall₂ (fun e n => eventsEqual n e = true)
      (evs.take (matchCount evs new)) (new.take (matchCount evs new))
  | [], _ => by simp [matchCount]
  | _ :: _, [] => by simp [matchCount]
  | e :: evs, n :: new => by
    simp only [matchCount]
    split
    · rename_i h
      simp only [List.take_succ_cons]
      exact List.Forall₂.cons h (matchCount_forall₂ evs new)
    · simp

/-! ## The edits of the live list -/

theorem eraseRange_append (out evs : List Occurrence) (rc : Nat) :
    eraseRange (out ++ evs) out.length rc = out ++ evs.drop rc := by
  simp [eraseRange, List.take_append_eq_append_take, List.drop_append_eq_append_drop,
    List.drop_eq_nil_of_le]

theorem insertAt_append (out rest : List Occurrence) (x : Occurrence) :
    insertAt (out ++ rest) out.length x = (out ++ [x]) ++ rest := by
  simp [insertAt, List.take_append_eq_append_take, List.drop_append_eq_append_drop]

theorem insertRows_append : ∀ (block out rest : List Occurrence),
    insertRows (out ++ rest) out.length block = (out ++ block ++ rest, out.length + block.length)
  | [], out, rest => by simp [insertRows]
  | x :: block, out, rest => by
    have h := insertRows_append block (out ++ [x]) rest
    simp only [List.length_append, List.length_singleton] at h
    simp only [insertRows, insertAt_append, h, List.length_cons]
    simp [Nat.add_assoc, Nat.add_comm 1]

/-! ## One pass of the merge loop -/

/-- What one pass does to a state whose live list is `out` followed by the
old suffix: `rc` old entries are removed, `mc` pairs are stepped over, `ic`
new entries are inserted. -/
theorem mergePass_spec (m : CalendarManager) (s s' : MergeState) (out : List Occurrence)
    (hlive : s.mEvents = out ++ s.events) (hidx : s.mEventsIndex = out.length)
    (h : mergePass m s = some s') :
    ∃ rc mc ic,
      removeCount m s.newEvents s.events = some rc ∧
      mc = matchCount (s.events.drop rc) s.newEvents ∧
      insertCount m (s.events.drop (rc + mc)) (s.newEvents.drop mc) = some ic ∧
      s'.events = s.events.drop (rc + mc) ∧
      s'.newEvents = s.newEvents.drop (mc + ic) ∧
      s'.mEvents = out ++ (s.events.drop rc).take mc ++ (s.newEvents.drop mc).take ic
        ++ s.events.drop (rc + mc) ∧
      s'.mEventsIndex = out.length + mc + ic ∧
      s'.deleted = s.deleted ++ s.events.take rc ∧
      s'.skippedEvents = s.skippedEvents ++ s.newEvents.take mc ∧
      s'.signals = s.signals
        ++ (if rc != 0 then [Effect.rowsRemoved out.length (out.length + rc - 1)] else [])
        ++ (if ic != 0 then
              [Effect.rowsInserted (out.length + mc) (out.length + mc + ic - 1)] else []) := by
  simp only [mergePass, Option.bind_eq_some, Option.map_eq_some'] at h
  obtain ⟨rc, hrc, ic, hic, rfl⟩ := h
  -- the state after the removal step
  have hrem : applyRemove s rc =
      { s with
        signals := s.signals ++
          (if rc != 0 then [Effect.rowsRemoved out.length (out.length + rc - 1)] else [])
        mEvents := out ++ s.events.drop rc
        deleted := s.deleted ++ s.events.take rc
        events := s.events.drop rc } := by
    by_cases h0 : rc = 0
    · subst h0
      cases s
      simp_all [applyRemove]
    · have e := eraseRange_append out s.events rc
      simp [applyRemove, h0, hlive, hidx, e]
  rw [hrem] at hic ⊢
  simp only [applyMatch] at hic ⊢
  have hsplit : s.events.drop rc =
      (s.events.drop rc).take (matchCount (s.events.drop rc) s.newEvents) ++
        s.events.drop (rc + matchCount (s.events.drop rc) s.newEvents) := by
    have e : s.events.drop (rc + matchCount (s.events.drop rc) s.newEvents) =
        (s.events.drop rc).drop (matchCount (s.events.drop rc) s.newEvents) := by
      rw [List.drop_drop, Nat.add_comm]
    rw [e, List.take_append_drop]
  have hlen : ((s.events.drop rc).take (matchCount (s.events.drop rc) s.newEvents)).length =
      matchCount (s.events.drop rc) s.newEvents := by
    rw [List.length_take]
    exact Nat.min_eq_left (matchCount_le_left _ _)
  refine ⟨rc, matchCount (s.events.drop rc) s.newEvents, ic, hrc, rfl, ?_, ?_⟩
  · simpa [List.drop_drop, Nat.add_comm] using hic
  · by_cases h0 : ic = 0
    · subst h0
      simp [applyInsert, List.drop_drop, Nat.add_comm, hidx]
    · have key := insertRows_append
        ((s.newEvents.drop (matchCount (s.events.drop rc) s.newEvents)).take ic)
        (out ++ (s.events.drop rc).take (matchCount (s.events.drop rc) s.newEvents))
        (s.events.drop (rc + matchCount (s.events.drop rc) s.newEvents))
      have hic_le := insertCount_le m _ _ _ hic
      simp only [List.length_append, hlen, List.append_assoc, ← hsplit] at key
      simp only [applyInsert, h0, bne_iff_ne, ne_eq, not_false_eq_true, if_true, hidx, key]
      simp only [List.length_drop] at hic_le
      simp [List.drop_drop, Nat.add_comm, hidx, List.length_take]
      omega

theorem split3 (l : List Occurrence) (a b : Nat) :
    l = l.take a ++ ((l.drop a).take b ++ l.drop (a + b)) := by
  have e : l.drop (a + b) = (l.drop a).drop b := by rw [List.drop_drop, Nat.add_comm]
  rw [e, List.take_append_drop, List.take_append_drop]

theorem forall₂_mem_left {R : Occurrence → Occurrence → Prop} :
    ∀ {l1 l2 : List Occurrence}, List.Forall₂ R l1 l2 →
      List.Forall₂ (fun a b => a ∈ l1 ∧ R a b) l1 l2
  | _, _, List.Forall₂.nil => List.Forall₂.nil
  | _, _, List.Forall₂.cons h t =>
    List.Forall₂.cons ⟨List.mem_cons_self _ _, h⟩
      ((forall₂_mem_left t).imp fun _ _ hab => ⟨List.mem_cons_of_mem _ hab.1, hab.2⟩)

/-! ## The merge loop -/

/-- What the merge loop has done when it finishes, started in a state whose
live list is `out` followed by the old suffix: the live list is `out`
followed by one entry per new entry, each the new entry itself or an old
entry `eventsEqual` to it; and the old and new entries are shared out between
that tail, the removed entries and the discarded new entries. -/
theorem mergeLoop_spec (m : CalendarManager) :
    ∀ (fuel : Nat) (s f : MergeState) (out : List Occurrence),
      s.mEvents = out ++ s.events → s.mEventsIndex = out.length →
      mergeLoop m fuel s = some f →
      ∃ tail removed discarded,
        f.mEvents = out ++ tail ∧
        f.deleted = s.deleted ++ removed ∧
        f.skippedEvents = s.skippedEvents ++ discarded ∧
        List.Forall₂ (fun l n => l = n ∨ (l ∈ s.events ∧ eventsEqual n l = true))
          tail s.newEvents ∧
        (tail ++ removed ++ discarded).Perm (s.events ++ s.newEvents) := by
  have done : ∀ (s : MergeState) (out : List Occurrence), s.mEvents = out ++ s.events →
      (s.newEvents.isEmpty && s.events.isEmpty) = true →
      ∃ tail removed discarded,
        s.mEvents = out ++ tail ∧
        s.deleted = s.deleted ++ removed ∧
        s.skippedEvents = s.skippedEvents ++ discarded ∧
        List.Forall₂ (fun l n => l = n ∨ (l ∈ s.events ∧ eventsEqual n l = true))
          tail s.newEvents ∧
        (tail ++ removed ++ discarded).Perm (s.events ++ s.newEvents) := by
    intro s out hlive hc
    simp only [Bool.and_eq_true, List.isEmpty_iff] at hc
    refine ⟨[], [], [], ?_, by simp, by simp, ?_, ?_⟩
    · simpa [hc.2] using hlive
    · simp [hc.1]
    · simp [hc.1, hc.2]
  intro fuel
  induction fuel with
  | zero =>
    intro s f out hlive _ h
    by_cases hc : (s.newEvents.isEmpty && s.events.isEmpty) = true
    · simp only [mergeLoop, hc, if_true, Option.some.injEq] at h
      subst h
      exact done s out hlive hc
    · simp [mergeLoop, hc] at h
  | succ fuel ih =>
    intro s f out hlive hidx h
    by_cases hc : (s.newEvents.isEmpty && s.events.isEmpty) = true
    · simp only [mergeLoop, hc, if_true, Option.some.injEq] at h
      subst h
      exact done s out hlive hc
    · simp only [mergeLoop, hc, Bool.false_eq_true, if_false, Option.bind_eq_some] at h
      obtain ⟨s', hpass, hloop⟩ := h
      obtain ⟨rc, mc, ic, _, hmc, hic, hev, hnew, hlive', hidx', hdel, hskip, _⟩ :=
        mergePass_spec m s s' out hlive hidx hpass
      have hmcl : mc ≤ (s.events.drop rc).length := hmc ▸ matchCount_le_left _ _
      have hicl : ic ≤ (s.newEvents.drop mc).length := insertCount_le m _ _ _ hic
      have hmatch := forall₂_mem_left (hmc ▸ matchCount_forall₂ (s.events.drop rc) s.newEvents)
      obtain ⟨tail, removed, discarded, hf, hfd, hfs, hall, hperm⟩ :=
        ih s' f (out ++ (s.events.drop rc).take mc ++ (s.newEvents.drop mc).take ic)
          (by rw [hlive', hev]) (by
            rw [hidx']
            simp only [List.length_append, List.length_take]
            omega) hloop
      have hE := split3 s.events rc mc
      have hN := split3 s.newEvents mc ic
      refine ⟨(s.events.drop rc).take mc ++ ((s.newEvents.drop mc).take ic ++ tail),
        s.events.take rc ++ removed, s.newEvents.take mc ++ discarded, ?_, ?_, ?_, ?_, ?_⟩
      · rw [hf]; simp
      · rw [hfd, hdel]; simp
      · rw [hfs, hskip]; simp
      · have hM : List.Forall₂ (fun l n => l = n ∨ (l ∈ s.events ∧ eventsEqual n l = true))
            ((s.events.drop rc).take mc) (s.newEvents.take mc) :=
          hmatch.imp fun a b hab =>
            Or.inr ⟨List.mem_of_mem_drop (List.mem_of_mem_take hab.1), hab.2⟩
        have hI : List.Forall₂ (fun l n => l = n ∨ (l ∈ s.events ∧ eventsEqual n l = true))
            ((s.newEvents.drop mc).take ic) ((s.newEvents.drop mc).take ic) :=
          List.forall₂_same.mpr fun _ _ => Or.inl rfl
        have hT : List.Forall₂ (fun l n => l = n ∨ (l ∈ s.events ∧ eventsEqual n l = true))
            tail (s.newEvents.drop (mc + ic)) := by
          rw [← hnew]
          refine hall.imp fun a b hab => hab.imp id fun hab2 => ⟨?_, hab2.2⟩
          have := hab2.1
          rw [hev] at this
          exact List.mem_of_mem_drop this
        have key : ∀ L, L = s.newEvents.take mc ++
            ((s.newEvents.drop mc).take ic ++ s.newEvents.drop (mc + ic)) →
            List.Forall₂ (fun l n => l = n ∨ (l ∈ s.events ∧ eventsEqual n l = true))
              ((s.events.drop rc).take mc ++ ((s.newEvents.drop mc).take ic ++ tail)) L :=
          fun L hL => hL ▸ List.rel_append hM (List.rel_append hI hT)
        exact key _ hN
      · rw [List.perm_iff_count]
        intro a
        have hp := List.perm_iff_count.mp hperm a
        have cE := congrArg (List.count a) hE
        have cN := congrArg (List.count a) hN
        rw [hev, hnew] at hp
        simp only [List.count_append] at hp cE cN ⊢
        omega

theorem applyRemove_events (s : MergeState) (rc : Nat) :
    (applyRemove s rc).events = s.events.drop rc := by
  by_cases h : rc = 0 <;> simp [applyRemove, h]

theorem applyRemove_newEvents (s : MergeState) (rc : Nat) :
    (applyRemove s rc).newEvents = s.newEvents := by
  by_cases h : rc = 0 <;> simp [applyRemove, h]

/-- A pass is defined when the order predicate is defined on every pair of an
old and a new entry still to be merged. -/
theorem mergePass_isSome (m : CalendarManager) (s : MergeState)
    (hdef : ∀ e ∈ s.events, ∀ n ∈ s.newEvents, (eventsLessThan m e n).isSome = true) :
    ∃ s', mergePass m s = some s' := by
  obtain ⟨rc, hrc⟩ := removeCount_isSome m s.newEvents s.events hdef
  obtain ⟨ic, hic⟩ := insertCount_isSome m
    (applyMatch (applyRemove s rc)
      (matchCount (applyRemove s rc).events (applyRemove s rc).newEvents)).events
    (applyMatch (applyRemove s rc)
      (matchCount (applyRemove s rc).events (applyRemove s rc).newEvents)).newEvents
    (by
      intro e he n hn
      simp only [applyMatch, applyRemove_events, applyRemove_newEvents] at he hn
      exact hdef e (List.mem_of_mem_drop (List.mem_of_mem_drop he)) n (List.mem_of_mem_drop hn))
  exact ⟨applyInsert (applyMatch (applyRemove s rc)
    (matchCount (applyRemove s rc).events (applyRemove s rc).newEvents)) ic,
    by simp only [mergePass, hrc, Option.some_bind, hic, Option.map_some']⟩

/-- Every pass of the loop consumes an entry. -/
theorem mergePass_progress (m : CalendarManager) (s : MergeState) (rc ic : Nat)
    (hc : ¬ (s.newEvents.isEmpty && s.events.isEmpty) = true)
    (hrc : removeCount m s.newEvents s.events = some rc)
    (hic : insertCount m (s.events.drop (rc + matchCount (s.events.drop rc) s.newEvents))
      (s.newEvents.drop (matchCount (s.events.drop rc) s.newEvents)) = some ic) :
    0 < rc + matchCount (s.events.drop rc) s.newEvents + ic := by
  by_contra hzero
  have h0 : rc = 0 ∧ matchCount (s.events.drop rc) s.newEvents = 0 ∧ ic = 0 := by omega
  obtain ⟨hr0, hm0, hi0⟩ := h0
  subst hr0
  simp only [List.drop_zero] at hm0 hic
  rw [hm0] at hic
  simp only [Nat.zero_add, List.drop_zero] at hic
  subst hi0
  rcases removeCount_stop m s.newEvents s.events 0 hrc with hnil | ⟨e, n, he, hn, hlt⟩
  · simp only [List.drop_zero] at hnil
    cases hnew : s.newEvents with
    | nil => simp [hnil, hnew] at hc
    | cons n ns =>
      rw [hnew, hnil] at hic
      exact absurd (insertCount_pos m [] ns n 0 hic (Or.inl rfl)) (by omega)
  · simp only [List.drop_zero] at he
    cases hnew : s.newEvents with
    | nil => simp [hnew] at hn
    | cons n' ns =>
      rw [hnew] at hn hic
      simp only [List.head?_cons, Option.some.injEq] at hn
      subst hn
      exact absurd (insertCount_pos m s.events ns n' 0 hic (Or.inr ⟨e, he, hlt⟩)) (by omega)

/-- The merge loop finishes within `events.length + newEvents.length` passes
when the order predicate is defined on every pair of an old and a new entry. -/
theorem mergeLoop_isSome (m : CalendarManager) :
    ∀ (fuel : Nat) (s : MergeState) (out : List Occurrence),
      s.mEvents = out ++ s.events → s.mEventsIndex = out.length →
      (∀ e ∈ s.events, ∀ n ∈ s.newEvents, (eventsLessThan m e n).isSome = true) →
      s.events.length + s.newEvents.length ≤ fuel →
      ∃ f, mergeLoop m fuel s = some f := by
  intro fuel
  induction fuel with
  | zero =>
    intro s out _ _ _ hfuel
    have h1 : s.events = [] := List.length_eq_zero.mp (by omega)
    have h2 : s.newEvents = [] := List.length_eq_zero.mp (by omega)
    exact ⟨s, by simp [mergeLoop, h1, h2]⟩
  | succ fuel ih =>
    intro s out hlive hidx hdef hfuel
    by_cases hc : (s.newEvents.isEmpty && s.events.isEmpty) = true
    · exact ⟨s, by simp only [mergeLoop, hc, if_true]⟩
    · obtain ⟨s', hpass⟩ := mergePass_isSome m s hdef
      obtain ⟨rc, mc, ic, hrc, hmc, hic, hev, hnew, hlive', hidx', _⟩ :=
        mergePass_spec m s s' out hlive hidx hpass
      have hprog := mergePass_progress m s rc ic hc hrc (hmc ▸ hic)
      rw [← hmc] at hprog
      have hrcl := removeCount_le m _ _ _ hrc
      have hmcl : mc ≤ (s.events.drop rc).length := hmc ▸ matchCount_le_left _ _
      have hmcr : mc ≤ s.newEvents.length := hmc ▸ matchCount_le_right _ _
      have hicl : ic ≤ (s.newEvents.drop mc).length := insertCount_le m _ _ _ hic
      simp only [List.length_drop] at hmcl hicl
      obtain ⟨f, hf⟩ := ih s' (out ++ (s.events.drop rc).take mc ++ (s.newEvents.drop mc).take ic)
        (by rw [hlive', hev])
        (by
          rw [hidx']
          simp only [List.length_append, List.length_take, List.length_drop]
          omega)
        (by
          intro e he n hn
          rw [hev] at he
          rw [hnew] at hn
          exact hdef e (List.mem_of_mem_drop he) n (List.mem_of_mem_drop hn))
        (by
          rw [hev, hnew]
          simp only [List.length_drop]
          omega)
      exact ⟨f, by simp only [mergeLoop, hc, Bool.false_eq_true, if_false, hpass,
        Option.some_bind, hf]⟩

theorem eventsEqual_content (n l : Occurrence) (h : eventsEqual n l = true) :
    l.content = n.content := by
  unfold eventsEqual at h
  split at h
  · simp at h
  · rename_i hne
    simp only [bne_iff_ne, ne_eq, Bool.or_eq_true, decide_eq_true_eq, not_or, not_not] at hne
    cases hn : n.eventObject with
    | none => simp [hn] at h
    | some en =>
      cases hl : l.eventObject with
      | none => simp [hn, hl] at h
      | some el =>
        simp only [hn, hl, Bool.and_eq_true, beq_iff_eq, CalendarEvent.uniqueId,
          CalendarEvent.recurrenceId] at h
        cases en
        cases el
        simp only at h
        simp [Occurrence.content, hne.1, hne.2, hn, hl, h.1, h.2]

theorem forall₂_map_eq {l1 l2 : List Occurrence}
    (h : List.Forall₂ (fun l n => l.content = n.content) l1 l2) :
    l1.map Occurrence.content = l2.map Occurrence.content := by
  induction h with
  | nil => rfl
  | cons hab _ ih => simp [hab, ih]

/-! ## The reconciliation as a whole -/

theorem reconcile_spec (m : CalendarManager) (old new skipped : List Occurrence)
    (r : RefreshResult) (h : reconcile m old new skipped = some r) :
    ∃ f : MergeState,
      mergeLoop m (old.length + new.length)
        { mEvents := old, events := old, newEvents := new, mEventsIndex := 0,
          skippedEvents := skipped, deleted := [], signals := [] } = some f ∧
      r.mEvents = f.mEvents ∧
      r.deleted = f.deleted ++ f.skippedEvents ∧
      r.signals = f.signals ++
        (if old.length != f.mEvents.length then [Effect.countChanged] else []) ++
        [Effect.updated] ∧
      List.Forall₂ (fun l n => l = n ∨ (l ∈ old ∧ eventsEqual n l = true)) r.mEvents new ∧
      (r.mEvents ++ r.deleted).Perm (old ++ new ++ skipped) := by
  simp only [reconcile, Option.map_eq_some'] at h
  obtain ⟨f, hf, rfl⟩ := h
  obtain ⟨tail, removed, discarded, h1, h2, h3, h4, h5⟩ :=
    mergeLoop_spec m _ _ f [] (by simp) (by simp) hf
  refine ⟨f, hf, rfl, rfl, rfl, ?_, ?_⟩
  · simpa [h1] using h4
  · simp only [h1, h2, h3, List.nil_append]
    rw [List.perm_iff_count]
    intro a
    have hp := List.perm_iff_count.mp h5 a
    simp only [List.count_append] at hp ⊢
    omega

theorem reconcile_isSome (m : CalendarManager) (old new skipped : List Occurrence)
    (hdef : ∀ o ∈ old, ∀ n ∈ new, (eventsLessThan m o n).isSome = true) :
    ∃ r, reconcile m old new skipped = some r := by
  obtain ⟨f, hf⟩ := mergeLoop_isSome m (old.length + new.length)
    { mEvents := old, events := old, newEvents := new, mEventsIndex := 0,
      skippedEvents := skipped, deleted := [], signals := [] } []
    (by simp) (by simp) hdef (by simp)
  simp only [reconcile, hf, Option.map_some']
  exact ⟨_, rfl⟩

theorem compareChars_self : ∀ l : List Char, compareChars l l = 0
  | [] => rfl
  | a :: as => by simp [compareChars, compareChars_self as]

theorem qStringCompare_self (s : String) (cs : CaseSensitivity) : qStringCompare s s cs = 0 := by
  cases cs <;> simp [qStringCompare, compareChars_self]

/-- Two occurrences with the same start and the same resolved event object tie
under the order predicate. -/
theorem eventsLessThan_same (m : CalendarManager) (o n : Occurrence)
    (hs : n.startTime = o.startTime) (he : n.eventObject = o.eventObject)
    (hres : o.eventObject.isSome = true) : eventsLessThan m o n = some false := by
  obtain ⟨eo, heo⟩ := Option.isSome_iff_exists.mp hres
  simp [eventsLessThan, hs, he, heo, qStringCompare_self]

theorem eventsEqual_same (o n : Occurrence)
    (hs : n.startTime = o.startTime) (hend : n.endTime = o.endTime)
    (he : n.eventObject = o.eventObject)
    (hres : o.eventObject.isSome = true) : eventsEqual n o = true := by
  obtain ⟨eo, heo⟩ := Option.isSome_iff_exists.mp hres
  simp [eventsEqual, hs, hend, he, heo]

theorem matchCount_all : ∀ {evs new : List Occurrence},
    List.Forall₂ (fun e n => eventsEqual n e = true) evs new → matchCount evs new = evs.length
  | _, _, List.Forall₂.nil => rfl
  | _, _, List.Forall₂.cons h t => by simp [matchCount, h, matchCount_all t]

theorem mergeLoop_done (m : CalendarManager) (fuel : Nat) (s : MergeState)
    (h : (s.newEvents.isEmpty && s.events.isEmpty) = true) : mergeLoop m fuel s = some s := by
  cases fuel <;> simp only [mergeLoop, h, if_true]

/-! ## The filter pass -/

/-- Two occurrences with the same start whose resolved events have the same
display label and the same unique id tie under the order predicate. -/
theorem eventsLessThan_tie (m : CalendarManager) (o n : Occurrence) (eo en : CalendarEvent)
    (hs : n.startTime = o.startTime) (ho : o.eventObject = some eo)
    (hn : n.eventObject = some en) (hlabel : en.displayLabel m = eo.displayLabel m)
    (huid : en.uniqueId = eo.uniqueId) : eventsLessThan m o n = some false := by
  simp [eventsLessThan, hs, ho, hn, hlabel, huid, qStringCompare_self]

/-! ## The sort call and the whole of `doRefresh` -/

/-- After a removal run that is followed by no match and no insertion, the
loop is over. -/
theorem mergePass_remove_only (m : CalendarManager) (s : MergeState) (rc : Nat)
    (hrc : removeCount m s.newEvents s.events = some rc)
    (hic : insertCount m (s.events.drop rc) s.newEvents = some 0) :
    s.events.drop rc = [] ∧ s.newEvents = [] := by
  rcases removeCount_stop m s.newEvents s.events rc hrc with hnil | ⟨e, n, he, hn, hlt⟩
  · refine ⟨hnil, ?_⟩
    cases hnew : s.newEvents with
    | nil => rfl
    | cons n ns =>
      rw [hnew, hnil] at hic
      exact absurd (insertCount_pos m [] ns n 0 hic (Or.inl rfl)) (by omega)
  · cases hnew : s.newEvents with
    | nil => simp [hnew] at hn
    | cons n' ns =>
      rw [hnew] at hn hic
      simp only [List.head?_cons, Option.some.injEq] at hn
      subst hn
      exact absurd (insertCount_pos m _ ns n' 0 hic (Or.inr ⟨e, he, hlt⟩)) (by omega)

/-- A pass of the loop keeps the range signals maximal runs. -/
theorem mergePass_ranges (m : CalendarManager) (s s' : MergeState) (out : List Occurrence)
    (hlive : s.mEvents = out ++ s.events) (hidx : s.mEventsIndex = out.length)
    (hc : ¬ (s.newEvents.isEmpty && s.events.isEmpty) = true)
    (hpass : mergePass m s = some s') (hJ : RangesOk m s) : RangesOk m s' := by
  obtain ⟨rc, mc, ic, hrc, hmc, hic, hev, hnew, _, hidx', _, _, hsig⟩ :=
    mergePass_spec m s s' out hlive hidx hpass
  obtain ⟨hchain, hne, hins, hrem⟩ := hJ
  have hnotdone : ¬ (s.events = [] ∧ s.newEvents = []) := by
    intro h
    simp [h.1, h.2] at hc
  -- after an insertion the pass starts with a removal
  have hforce : ∀ a b, s.signals.getLast? = some (Effect.rowsInserted a b) → 0 < rc := by
    intro a b hlast
    cases hevs : s.events with
    | nil =>
      rcases hins a b hlast with hn | ⟨e, n, he, _, _⟩
      · exact absurd ⟨hevs, hn⟩ hnotdone
      · simp [hevs] at he
    | cons e es =>
      rw [hevs] at hrc
      refine removeCount_pos m s.newEvents es e rc hrc ?_
      rcases hins a b hlast with hn | ⟨e', n, he, hn, hlt⟩
      · exact Or.inl hn
      · rw [hevs] at he
        simp only [List.head?_cons, Option.some.injEq] at he
        subst he
        exact Or.inr ⟨n, hn, hlt⟩
  -- where the insertion run stops
  have hstop := insertCount_stop m _ _ ic hic
  rw [List.drop_drop, ← hnew, ← hev] at hstop
  have hfollowRem : ∀ x ∈ s.signals.getLast?, ∀ l,
      mayFollow x (Effect.rowsRemoved out.length l) = true := by
    intro x hx l
    cases x <;> simp only [mayFollow, decide_eq_true_eq]
    rename_i f l'
    rcases hrem f l' hx with h | h
    · omega
    · exact absurd h hnotdone
  have hfollowIns : rc = 0 → ∀ x ∈ s.signals.getLast?, ∀ a b,
      mayFollow x (Effect.rowsInserted a b) = true := by
    intro h0 x hx a b
    cases x <;> simp only [mayFollow]
    rename_i a' b'
    have := hforce a' b' hx
    omega
  by_cases hr0 : rc = 0
  · by_cases hi0 : ic = 0
    · -- nothing is emitted
      subst hr0 hi0
      simp only [bne_self_eq_false, Bool.false_eq_true, if_false, List.append_nil] at hsig
      refine ⟨hsig ▸ hchain, hsig ▸ hne, ?_, ?_⟩
      · intro a b hlast
        rw [hsig] at hlast
        have := hforce a b hlast
        omega
      · intro f l hlast
        rw [hsig] at hlast
        rcases hrem f l hlast with h | h
        · left; omega
        · exact absurd h hnotdone
    · -- an insertion only
      subst hr0
      simp only [bne_self_eq_false, Bool.false_eq_true, if_false, List.append_nil, bne_iff_ne,
        ne_eq, hi0, not_false_eq_true, if_true] at hsig
      refine ⟨?_, ?_, ?_, ?_⟩
      · rw [hsig, List.chain'_append]
        refine ⟨hchain, List.chain'_singleton _, ?_⟩
        intro x hx y hy
        simp only [List.head?_cons, Option.mem_def, Option.some.injEq] at hy
        subst hy
        exact hfollowIns rfl x hx _ _
      · intro op hop
        rw [hsig] at hop
        rcases List.mem_append.mp hop with h | h
        · exact hne op h
        · simp only [List.mem_singleton] at h
          subst h
          simp only [rangeNonEmpty, decide_eq_true_eq]
          omega
      · intro a b _
        exact hstop
      · intro f l hlast
        rw [hsig] at hlast
        simp at hlast
  · have hsig1 : s.signals ++
        (if (rc != 0) = true then [Effect.rowsRemoved out.length (out.length + rc - 1)] else [])
        = s.signals ++ [Effect.rowsRemoved out.length (out.length + rc - 1)] := by
      simp [hr0]
    have hchain1 : (s.signals ++ [Effect.rowsRemoved out.length (out.length + rc - 1)]).Chain'
        (fun a b => mayFollow a b = true) := by
      rw [List.chain'_append]
      refine ⟨hchain, List.chain'_singleton _, ?_⟩
      intro x hx y hy
      simp only [List.head?_cons, Option.mem_def, Option.some.injEq] at hy
      subst hy
      exact hfollowRem x hx _
    have hne1 : ∀ op ∈ s.signals ++ [Effect.rowsRemoved out.length (out.length + rc - 1)],
        rangeNonEmpty op = true := by
      intro op hop
      rcases List.mem_append.mp hop with h | h
      · exact hne op h
      · simp only [List.mem_singleton] at h
        subst h
        simp only [rangeNonEmpty, decide_eq_true_eq]
        omega
    rw [hsig1] at hsig
    by_cases hi0 : ic = 0
    · -- a removal only
      subst hi0
      simp only [bne_self_eq_false, Bool.false_eq_true, if_false, List.append_nil] at hsig
      refine ⟨hsig ▸ hchain1, hsig ▸ hne1, ?_, ?_⟩
      · intro a b hlast
        rw [hsig] at hlast
        simp at hlast
      · intro f l hlast
        rw [hsig] at hlast
        simp only [List.getLast?_concat, Option.some.injEq, Effect.rowsRemoved.injEq] at hlast
        obtain ⟨hf, _⟩ := hlast
        subst hf
        by_cases hm0 : mc = 0
        · right
          subst hm0
          have h := mergePass_remove_only m s rc hrc (by simpa using hic)
          rw [hev, hnew]
          simpa using h
        · left
          rw [hidx']
          omega
    · -- a removal, then an insertion
      simp only [bne_iff_ne, ne_eq, hi0, not_false_eq_true, if_true] at hsig
      refine ⟨?_, ?_, ?_, ?_⟩
      · rw [hsig, List.chain'_append]
        refine ⟨hchain1, List.chain'_singleton _, ?_⟩
        intro x hx y hy
        simp only [List.head?_cons, Option.mem_def, Option.some.injEq] at hy
        subst hy
        simp only [List.getLast?_concat, Option.mem_def, Option.some.injEq] at hx
        subst hx
        rfl
      · intro op hop
        rw [hsig] at hop
        rcases List.mem_append.mp hop with h | h
        · exact hne1 op h
        · simp only [List.mem_singleton] at h
          subst h
          simp only [rangeNonEmpty, decide_eq_true_eq]
          omega
      · intro a b _
        exact hstop
      · intro f l hlast
        rw [hsig] at hlast
        simp at hlast

/-- The range signals of the merge loop are maximal runs when it finishes. -/
theorem mergeLoop_ranges (m : CalendarManager) :
    ∀ (fuel : Nat) (s f : MergeState) (out : List Occurrence),
      s.mEvents = out ++ s.events → s.mEventsIndex = out.length → RangesOk m s →
      mergeLoop m fuel s = some f → RangesOk m f := by
  intro fuel
  induction fuel with
  | zero =>
    intro s f out _ _ hJ h
    by_cases hc : (s.newEvents.isEmpty && s.events.isEmpty) = true
    · simp only [mergeLoop, hc, if_true, Option.some.injEq] at h
      exact h ▸ hJ
    · simp [mergeLoop, hc] at h
  | succ fuel ih =>
    intro s f out hlive hidx hJ h
    by_cases hc : (s.newEvents.isEmpty && s.events.isEmpty) = true
    · simp only [mergeLoop, hc, if_true, Option.some.injEq] at h
      exact h ▸ hJ
    · simp only [mergeLoop, hc, Bool.false_eq_true, if_false, Option.bind_eq_some] at h
      obtain ⟨s', hpass, hloop⟩ := h
      have hJ' := mergePass_ranges m s s' out hlive hidx hc hpass hJ
      obtain ⟨rc, mc, ic, _, hmc, hic, hev, _, hlive', hidx', _⟩ :=
        mergePass_spec m s s' out hlive hidx hpass
      have hmcl : mc ≤ (s.events.drop rc).length := hmc ▸ matchCount_le_left _ _
      have hicl : ic ≤ (s.newEvents.drop mc).length := insertCount_le m _ _ _ hic
      exact ih s' f (out ++ (s.events.drop rc).take mc ++ (s.newEvents.drop mc).take ic)
        (by rw [hlive', hev]) (by
          rw [hidx']
          simp only [List.length_append, List.length_take]
          omega) hJ' hloop

/-- The signals of a reconciliation: every range signal covers at least one
row, and each signal may follow the one before it. -/
theorem reconcile_ranges (m : CalendarManager) (old new skipped : List Occurrence)
    (r : RefreshResult) (h : reconcile m old new skipped = some r) :
    r.signals.Chain' (fun a b => mayFollow a b = true) ∧
      ∀ op ∈ r.signals, rangeNonEmpty op = true := by
  obtain ⟨f, hf, _, _, hsig, _, _⟩ := reconcile_spec m old new skipped r h
  have hJ := mergeLoop_ranges m _ _ f [] (by simp) (by simp)
    (by
      refine ⟨by simp, by simp, ?_, ?_⟩ <;> intro a b hlast <;> simp at hlast) hf
  obtain ⟨hchain, hne, _, _⟩ := hJ
  have htail : ∀ (x y : Effect), y = Effect.countChanged ∨ y = Effect.updated →
      mayFollow x y = true := by
    intro x y hy
    rcases hy with rfl | rfl <;> cases x <;> rfl
  constructor
  · rw [hsig, List.chain'_append]
    refine ⟨?_, List.chain'_singleton _, ?_⟩
    · rw [List.chain'_append]
      refine ⟨hchain, ?_, ?_⟩
      · split
        · exact List.chain'_singleton _
        · exact List.chain'_nil
      · intro x _ y hy
        split at hy
        · exact htail x y (Or.inl (by simpa using hy.symm))
        · simp at hy
    · intro x _ y hy
      exact htail x y (Or.inr (by simpa using hy.symm))
  · intro op hop
    rw [hsig] at hop
    simp only [List.mem_append, List.mem_singleton] at hop
    rcases hop with (hop | hop) | hop
    · exact hne op hop
    · split at hop
      · simp only [List.mem_singleton] at hop
        subst hop
        rfl
      · simp at hop
    · subst hop
      rfl

/-! ## The claims -/

/-- C1 (completeness of reconciliation). For every old live list and every
new list: whenever the merge loop of `doRefresh` finishes, the live list
has the length of the new list, its entry at every index `j` is the new entry
at `j` itself or an old entry `eventsEqual` to it, and so it shows the same
values in the same order as the new list. The loop does finish whenever
`eventsLessThan` is defined on every pair of an old and a new entry, as it is
when all event objects resolve. -/
theorem completeness (m : CalendarManager) (old new skipped : List Occurrence) :
    (∀ r, reconcile m old new skipped = some r →
      r.mEvents.length = new.length ∧
      (∀ j (h1 : j < r.mEvents.length) (h2 : j < new.length),
        r.mEvents.get ⟨j, h1⟩ = new.get ⟨j, h2⟩ ∨
          (r.mEvents.get ⟨j, h1⟩ ∈ old ∧
            eventsEqual (new.get ⟨j, h2⟩) (r.mEvents.get ⟨j, h1⟩) = true)) ∧
      r.mEvents.map Occurrence.content = new.map Occurrence.content) ∧
    ((∀ o ∈ old, ∀ n ∈ new, (eventsLessThan m o n).isSome = true) →
      ∃ r, reconcile m old new skipped = some r) := by
  refine ⟨?_, reconcile_isSome m old new skipped⟩
  intro r h
  obtain ⟨_, _, _, _, _, hall, _⟩ := reconcile_spec m old new skipped r h
  have hget := List.forall₂_iff_get.mp hall
  refine ⟨hget.1, hget.2, ?_⟩
  have hc : List.Forall₂ (fun l n => l.content = n.content) r.mEvents new :=
    hall.imp fun l n hln => by
      rcases hln with rfl | ⟨_, he⟩
      · rfl
      · exact eventsEqual_content n l he
  exact forall₂_map_eq hc

/-- C1 at old `[e1, e2]` and new `[e1, e3]` (the same `e1`, as another
object): the reconciliation returns and the live list has two entries. -/
theorem completeness_witness :
    ∃ r, reconcile labelManager
        [mkOccurrence 1 600 660 "e1", mkOccurrence 2 660 720 "e2"]
        [mkOccurrence 3 600 660 "e1", mkOccurrence 4 630 690 "e3"] [] = some r ∧
      r.mEvents.length = 2 := by
  obtain ⟨r, hr⟩ := (completeness labelManager
    [mkOccurrence 1 600 660 "e1", mkOccurrence 2 660 720 "e2"]
    [mkOccurrence 3 600 660 "e1", mkOccurrence 4 630 690 "e3"] []).2 (by decide)
  exact ⟨r, hr, ((completeness labelManager _ _ []).1 r hr).1⟩

/-- C2 at a failing input: old `[o]` (11:00), new `[m, n]` with `m` at 10:00
and `n` the same instance as `o`; both lists are sorted, and `m`, `n` are at
ascending addresses, so that `doRefresh` hands them to the merge in this order.
The merge inserts `m` and `n` in one insertion run and then removes `o`: the
old instance is deleted and the new one is live. -/
theorem identity_lost :
    eventsEqual (mkOccurrence 3 660 720 "o") (mkOccurrence 1 660 720 "o") = true ∧
    eventsLessThan labelManager (mkOccurrence 2 600 660 "m") (mkOccurrence 3 660 720 "o")
      = some true ∧
    reconcile labelManager [mkOccurrence 1 660 720 "o"]
        [mkOccurrence 2 600 660 "m", mkOccurrence 3 660 720 "o"] [] =
      some { mEvents := [mkOccurrence 2 600 660 "m", mkOccurrence 3 660 720 "o"]
             deleted := [mkOccurrence 1 660 720 "o"]
             signals := [Effect.rowsInserted 0 1, Effect.rowsRemoved 2 2,
               Effect.countChanged, Effect.updated] } ∧
    doRefresh labelManager { emptyModel true with mEvents := [mkOccurrence 1 660 720 "o"] }
        [mkOccurrence 2 600 660 "m", mkOccurrence 3 660 720 "o"] =
      some { mEvents := [mkOccurrence 2 600 660 "m", mkOccurrence 3 660 720 "o"]
             deleted := [mkOccurrence 1 660 720 "o"]
             signals := [Effect.rowsInserted 0 1, Effect.rowsRemoved 2 2,
               Effect.countChanged, Effect.updated] } := by
  decide

/-- C3 fails at old `[b]`, new `[a, c]` with `a < b < c` and no match: the
merge emits three range signals (insert `a`, remove `b`, insert `c`), while
two contiguous edits (remove `b`, insert `a, c`) give the same live list. -/
theorem minimality_fails :
    ∃ r, reconcile labelManager [mkOccurrence 1 660 720 "b"]
        [mkOccurrence 2 600 660 "a", mkOccurrence 3 720 780 "c"] [] = some r ∧
      r.signals.filter isRangeSignal =
        [Effect.rowsInserted 0 0, Effect.rowsRemoved 1 1, Effect.rowsInserted 1 1] ∧
      ∃ edits : List RangeEdit, edits.length = 2 ∧
        edits.foldl (fun rows e => e.apply rows) [mkOccurrence 1 660 720 "b"] = r.mEvents :=
  ⟨{ mEvents := [mkOccurrence 2 600 660 "a", mkOccurrence 3 720 780 "c"]
     deleted := [mkOccurrence 1 660 720 "b"]
     signals := [Effect.rowsInserted 0 0, Effect.rowsRemoved 1 1, Effect.rowsInserted 1 1,
       Effect.countChanged, Effect.updated] },
    by decide, by decide,
    [RangeEdit.remove 0 0,
      RangeEdit.insert 0 [mkOccurrence 2 600 660 "a", mkOccurrence 3 720 780 "c"]],
    by decide, by decide⟩

/-- C3 as amended. For every old and new list: whenever the merge loop
finishes, every range signal it emitted covers at least one row, no
`rowsInserted` directly follows a `rowsInserted`, and a `rowsRemoved` that
directly follows a `rowsRemoved` starts at a greater index (a retained row
lies between the two ranges): each signal covers a whole run of the merge. The
loop does finish whenever `eventsLessThan` is defined on every pair of an old
and a new entry. -/
theorem ranges_are_runs (m : CalendarManager) (old new skipped : List Occurrence) :
    (∀ r, reconcile m old new skipped = some r →
      r.signals.Chain' (fun a b => mayFollow a b = true) ∧
      ∀ op ∈ r.signals, rangeNonEmpty op = true) ∧
    ((∀ o ∈ old, ∀ n ∈ new, (eventsLessThan m o n).isSome = true) →
      ∃ r, reconcile m old new skipped = some r) :=
  ⟨reconcile_ranges m old new skipped, reconcile_isSome m old new skipped⟩

/-- C3 as amended, at old `[b, d]` and new `[c]` with `b < c < d`: the
reconciliation returns, and its signals are runs. -/
theorem ranges_are_runs_witness :
    ∃ r, reconcile labelManager
        [mkOccurrence 1 600 660 "b", mkOccurrence 2 720 780 "d"]
        [mkOccurrence 3 660 720 "c"] [] = some r ∧
      r.signals.Chain' (fun a b => mayFollow a b = true) := by
  obtain ⟨r, hr⟩ := (ranges_are_runs labelManager
    [mkOccurrence 1 600 660 "b", mkOccurrence 2 720 780 "d"]
    [mkOccurrence 3 660 720 "c"] []).2 (by decide)
  exact ⟨r, hr, ((ranges_are_runs labelManager _ _ []).1 r hr).1⟩

/-- C4 at a failing input: three candidates with the same start, labels `b`,
`a`, `a` and unique ids `x2`, `x1`, `x2`, at ascending addresses, and an empty
live list. `doRefresh` leaves them in the order of their addresses, with the
`b` entry first although the `(a, x1)` entry is less than it. -/
theorem sort_ignores_comparator :
    doRefresh sortManager (emptyModel true)
        [{ addr := 1, startTime := 0, endTime := 1,
           eventObject := some { mUniqueId := "x2", mRecurrenceId := 0 } },
         { addr := 2, startTime := 0, endTime := 1,
           eventObject := some { mUniqueId := "x1", mRecurrenceId := 0 } },
         { addr := 3, startTime := 0, endTime := 1,
           eventObject := some { mUniqueId := "x2", mRecurrenceId := 1 } }] =
      some { mEvents :=
              [{ addr := 1, startTime := 0, endTime := 1,
                 eventObject := some { mUniqueId := "x2", mRecurrenceId := 0 } },
               { addr := 2, startTime := 0, endTime := 1,
                 eventObject := some { mUniqueId := "x1", mRecurrenceId := 0 } },
               { addr := 3, startTime := 0, endTime := 1,
                 eventObject := some { mUniqueId := "x2", mRecurrenceId := 1 } }]
             deleted := []
             signals := [Effect.rowsInserted 0 2, Effect.countChanged, Effect.updated] } ∧
    eventsLessThan sortManager
        { addr := 2, startTime := 0, endTime := 1,
          eventObject := some { mUniqueId := "x1", mRecurrenceId := 0 } }
        { addr := 1, startTime := 0, endTime := 1,
          eventObject := some { mUniqueId := "x2", mRecurrenceId := 0 } } = some true := by
  decide

/-- C6 (idempotence of reconciliation). For every old live list whose entries
all have a resolved event object and every new list of the same length whose
`i`-th entry has the start, the end and the event identity (unique id and
recurrence id, hence the display label) of the `i`-th old entry: the
reconciliation emits no `rowsInserted`, no `rowsRemoved` and no `countChanged`
(its only signal is `updated`), the live list is the old list, with the same
objects at the same positions, and all the new entries are disposed. -/
theorem idempotence (m : CalendarManager) (old new skipped : List Occurrence)
    (hres : ∀ o ∈ old, o.eventObject.isSome = true)
    (hsame : List.Forall₂ (fun o n => n.startTime = o.startTime ∧ n.endTime = o.endTime ∧
      n.eventObject = o.eventObject) old new) :
    reconcile m old new skipped =
      some { mEvents := old, deleted := skipped ++ new, signals := [Effect.updated] } := by
  have hlen : old.length = new.length := hsame.length_eq
  have hsame' := forall₂_mem_left hsame
  have heq : List.Forall₂ (fun e n => eventsEqual n e = true) old new :=
    hsame'.imp fun o n h => eventsEqual_same o n h.2.1 h.2.2.1 h.2.2.2 (hres o h.1)
  cases hold : old with
  | nil =>
    have hnew : new = [] := List.length_eq_zero.mp (by rw [← hlen, hold]; rfl)
    subst hnew
    simp [reconcile, mergeLoop]
  | cons e es =>
    cases hnew : new with
    | nil => rw [hold, hnew] at hlen; simp at hlen
    | cons n ns =>
      have hpair : eventsLessThan m e n = some false := by
        rw [hold, hnew] at hsame'
        cases hsame' with
        | cons h _ => exact eventsLessThan_same m e n h.2.1 h.2.2.2 (hres e (hold ▸ h.1))
      have hmc : matchCount (e :: es) (n :: ns) = (e :: es).length := by
        rw [← hold, ← hnew]; exact matchCount_all heq
      have hlen2 : es.length = ns.length := by
        rw [hold, hnew] at hlen; simpa using hlen
      have hpass : mergePass m
          { mEvents := e :: es, events := e :: es, newEvents := n :: ns, mEventsIndex := 0,
            skippedEvents := skipped, deleted := [], signals := [] } =
          some { mEvents := e :: es, events := [], newEvents := [],
                 mEventsIndex := (e :: es).length,
                 skippedEvents := skipped ++ n :: ns, deleted := [], signals := [] } := by
        simp only [mergePass, removeCount, hpair, Option.some_bind, Bool.false_eq_true, if_false,
          applyRemove, bne_self_eq_false, hmc, applyMatch]
        simp [insertCount, applyInsert, hlen2]
      simp only [reconcile, List.length_cons, Nat.add_succ, mergeLoop, List.isEmpty_cons,
        Bool.false_and, Bool.false_eq_true, if_false, hpass, Option.some_bind]
      rw [mergeLoop_done m _ _ (by simp)]
      simp

/-- C6 at old `[e1, e2]` and the same two occurrences as new objects. -/
theorem idempotence_witness :
    reconcile labelManager
        [mkOccurrence 1 600 660 "e1", mkOccurrence 2 660 720 "e2"]
        [mkOccurrence 3 600 660 "e1", mkOccurrence 4 660 720 "e2"] [] =
      some { mEvents := [mkOccurrence 1 600 660 "e1", mkOccurrence 2 660 720 "e2"]
             deleted := [mkOccurrence 3 600 660 "e1", mkOccurrence 4 660 720 "e2"]
             signals := [Effect.updated] } :=
  idempotence labelManager
    [mkOccurrence 1 600 660 "e1", mkOccurrence 2 660 720 "e2"]
    [mkOccurrence 3 600 660 "e1", mkOccurrence 4 660 720 "e2"] [] (by decide)
    (List.Forall₂.cons ⟨rfl, rfl, rfl⟩ (List.Forall₂.cons ⟨rfl, rfl, rfl⟩ List.Forall₂.nil))

/-- C7 at a failing input: `eventsEqual` is false on an occurrence whose event
object does not resolve, but `eventsLessThan` against an occurrence with the
same start dereferences the null event object, and so does the reconciliation
of the two. -/
theorem unresolved_not_orderable :
    (∀ e1 e2 : Occurrence, e1.eventObject = none →
      eventsEqual e1 e2 = false ∧ eventsEqual e2 e1 = false) ∧
    eventsLessThan labelManager (unresolvedOccurrence 1 600 660) (mkOccurrence 2 600 660 "a")
      = none ∧
    eventsLessThan labelManager (mkOccurrence 2 600 660 "a") (unresolvedOccurrence 1 600 660)
      = none ∧
    reconcile labelManager [mkOccurrence 2 600 660 "a"] [unresolvedOccurrence 1 600 660] []
      = none := by
  refine ⟨?_, by decide, by decide, by decide⟩
  intro e1 e2 h
  constructor
  · unfold eventsEqual
    split
    · rfl
    · simp [h]
  · unfold eventsEqual
    split
    · rfl
    · cases h2 : e2.eventObject <;> simp [h]

/-- C8 fails between `classBegin` and `componentComplete`: each setter, given
a value that differs from the current one, stores it and emits its change
signal but requests no recompute. -/
theorem setters_incomplete_no_request :
    ((emptyModel true).classBegin.1.setStartDate 5 =
      ({ emptyModel false with mStartDate := 5 }, [Effect.startDateChanged])) ∧
    ((emptyModel true).classBegin.1.setEndDate 5 =
      ({ emptyModel false with mEndDate := 5 }, [Effect.endDateChanged])) ∧
    ((emptyModel true).classBegin.1.setFilterMode 1 =
      ({ emptyModel false with mFilterMode := 1 }, [Effect.filterModeChanged])) := by
  decide

/-- C8 as amended. For every state and each of `setStartDate`, `setEndDate`
and `setFilterMode`: a value equal to the current one leaves the state
unchanged with no signal and no recompute request; any other value is stored,
the change signal is emitted once, and exactly one recompute request
(`scheduleAgendaRefresh`) is issued if `mIsComplete` holds and none otherwise.
`classBegin` clears `mIsComplete` and `componentComplete` sets it and issues
one request. -/
theorem setters (s : CalendarAgendaModel) (d : QDate) (mode : Int) :
    (d = s.mStartDate → s.setStartDate d = (s, [])) ∧
    (d ≠ s.mStartDate → s.setStartDate d =
      ({ s with mStartDate := d },
        Effect.startDateChanged ::
          if s.mIsComplete then [Effect.scheduleAgendaRefresh] else [])) ∧
    (d = s.mEndDate → s.setEndDate d = (s, [])) ∧
    (d ≠ s.mEndDate → s.setEndDate d =
      ({ s with mEndDate := d },
        Effect.endDateChanged ::
          if s.mIsComplete then [Effect.scheduleAgendaRefresh] else [])) ∧
    (mode = s.mFilterMode → s.setFilterMode mode = (s, [])) ∧
    (mode ≠ s.mFilterMode → s.setFilterMode mode =
      ({ s with mFilterMode := mode },
        Effect.filterModeChanged ::
          if s.mIsComplete then [Effect.scheduleAgendaRefresh] else [])) ∧
    s.classBegin = ({ s with mIsComplete := false }, []) ∧
    s.componentComplete = ({ s with mIsComplete := true }, [Effect.scheduleAgendaRefresh]) := by
  refine ⟨?_, ?_, ?_, ?_, ?_, ?_, rfl, ?_⟩
  · intro h; simp [CalendarAgendaModel.setStartDate, h]
  · intro h
    have hne : ¬ s.mStartDate = d := fun e => h e.symm
    cases hc : s.mIsComplete <;>
      simp [CalendarAgendaModel.setStartDate, CalendarAgendaModel.refresh, hne, hc]
  · intro h; simp [CalendarAgendaModel.setEndDate, h]
  · intro h
    have hne : ¬ s.mEndDate = d := fun e => h e.symm
    cases hc : s.mIsComplete <;>
      simp [CalendarAgendaModel.setEndDate, CalendarAgendaModel.refresh, hne, hc]
  · intro h; simp [CalendarAgendaModel.setFilterMode, h]
  · intro h
    cases hc : s.mIsComplete <;>
      simp [CalendarAgendaModel.setFilterMode, CalendarAgendaModel.refresh, h, hc]
  · simp [CalendarAgendaModel.componentComplete, CalendarAgendaModel.refresh]

/-- C8 as amended, at a complete model: a new start date is stored and one
recompute is requested. -/
theorem setters_witness :
    (emptyModel true).setStartDate 5 =
      ({ emptyModel true with mStartDate := 5 },
        [Effect.startDateChanged, Effect.scheduleAgendaRefresh]) :=
  (setters (emptyModel true) 5 0).2.1 (by decide)

/-- C9 fails at the scenario of the specification (times in minutes of the
day): the insertion run at index 1 takes `e3` and the new `e2` together, the
old `e2` is removed afterwards at index 3, and no second insertion follows. -/
theorem scenario_signals :
    ∃ r, reconcile labelManager
        [mkOccurrence 1 600 660 "e1", mkOccurrence 2 660 720 "e2"]
        [mkOccurrence 3 600 660 "e1", mkOccurrence 4 630 690 "e3", mkOccurrence 5 660 750 "e2"]
        [] = some r ∧
      r.signals = [Effect.rowsInserted 1 2, Effect.rowsRemoved 3 3,
        Effect.countChanged, Effect.updated] ∧
      Effect.rowsInserted 1 1 ∉ r.signals :=
  ⟨{ mEvents := [mkOccurrence 1 600 660 "e1", mkOccurrence 4 630 690 "e3",
       mkOccurrence 5 660 750 "e2"]
     deleted := [mkOccurrence 2 660 720 "e2", mkOccurrence 3 600 660 "e1"]
     signals := [Effect.rowsInserted 1 2, Effect.rowsRemoved 3 3,
       Effect.countChanged, Effect.updated] },
    by decide, rfl, by decide⟩

/-- C9 as amended. For old `[e1, e2]` and new `[n1, e3, n2]` where `n1` is
the same instance as `e1`, `e3` starts before `e2`, and `n2` has the start, the
display label and the unique id of `e2`, whatever its end: the reconciliation
emits one `rowsInserted` for the rows 1 to 2 (`e3` and `n2`), then one
`rowsRemoved` for row 3 (the old `e2`), then `countChanged` and `updated`; the
live list is `[e1, e3, n2]` with the old instance of `e1`, and `e2` and `n1`
are disposed. -/
theorem scenario (m : CalendarManager) (e1 e2 n1 e3 n2 : Occurrence) (eo en : CalendarEvent)
    (h1 : eventsEqual n1 e1 = true)
    (h3 : e3.startTime < e2.startTime)
    (hstart : n2.startTime = e2.startTime)
    (ho : e2.eventObject = some eo) (hn : n2.eventObject = some en)
    (hlabel : en.displayLabel m = eo.displayLabel m)
    (huid : en.uniqueId = eo.uniqueId) :
    reconcile m [e1, e2] [n1, e3, n2] [] =
      some { mEvents := [e1, e3, n2]
             deleted := [e2, n1]
             signals := [Effect.rowsInserted 1 2, Effect.rowsRemoved 3 3,
               Effect.countChanged, Effect.updated] } := by
  have hc := eventsEqual_content n1 e1 h1
  simp only [Occurrence.content, Prod.mk.injEq] at hc
  have hres1 : e1.eventObject.isSome = true := by
    unfold eventsEqual at h1
    split at h1
    · simp at h1
    · cases h : e1.eventObject with
      | none => cases hn : n1.eventObject <;> simp [h, hn] at h1
      | some _ => rfl
  have hlt1 : eventsLessThan m e1 n1 = some false :=
    eventsLessThan_same m e1 n1 hc.1.symm hc.2.2.symm hres1
  have heq2 : eventsEqual e3 e2 = false := by
    have : e3.startTime ≠ e2.startTime := ne_of_lt h3
    simp [eventsEqual, this]
  have hlt2 : eventsLessThan m e2 e3 = some false := by
    have hne : ¬ e2.startTime = e3.startTime := ne_of_gt h3
    have hnlt : ¬ e2.startTime < e3.startTime := lt_asymm h3
    simp [eventsLessThan, hne, hnlt]
  have hlt3 : eventsLessThan m e2 n2 = some false :=
    eventsLessThan_tie m e2 n2 eo en hstart ho hn hlabel huid
  simp [reconcile, mergeLoop, mergePass, removeCount, matchCount, insertCount, applyRemove,
    applyMatch, applyInsert, insertRows, insertAt, eraseRange, h1, hlt1, heq2, hlt2, hlt3]

/-- C9 as amended, at the scenario of the specification. -/
theorem scenario_witness :
    reconcile labelManager
        [mkOccurrence 1 600 660 "e1", mkOccurrence 2 660 720 "e2"]
        [mkOccurrence 3 600 660 "e1", mkOccurrence 4 630 690 "e3", mkOccurrence 5 660 750 "e2"]
        [] =
      some { mEvents := [mkOccurrence 1 600 660 "e1", mkOccurrence 4 630 690 "e3",
               mkOccurrence 5 660 750 "e2"]
             deleted := [mkOccurrence 2 660 720 "e2", mkOccurrence 3 600 660 "e1"]
             signals := [Effect.rowsInserted 1 2, Effect.rowsRemoved 3 3,
               Effect.countChanged, Effect.updated] } :=
  scenario labelManager (mkOccurrence 1 600 660 "e1") (mkOccurrence 2 660 720 "e2")
    (mkOccurrence 3 600 660 "e1") (mkOccurrence 4 630 690 "e3") (mkOccurrence 5 660 750 "e2")
    { mUniqueId := "e2", mRecurrenceId := 0 } { mUniqueId := "e2", mRecurrenceId := 0 }
    (by decide) (by decide) (by decide) rfl rfl rfl rfl

end CalendarAgenda
